import Mathlib

/-!
Verification of the core logic of `cm.py` (Claude Module Manager,
`SimpleModuleManager`): the frontmatter parser, the compile pipeline
(filter by `active`, sort by `priority` descending, strip headers,
render with separators), the listing default for `active`, and the
regex-based activation toggler.

The Python code is shallowly embedded: text is handled as `String` /
`List Char`, the filesystem store as an explicit list of documents, a
raised `ValueError` as `Option.none`, and `datetime.now()` /
`detect_project_type()` as parameters.  Python built-in string
operations (`strip`, `split`, `lower`, `int`, `re.sub`) are modelled
for ASCII text, which covers every string the tool itself produces.
-/

/-- Python `str` whitespace test, restricted to the ASCII whitespace
characters `' '`, `'\t'`, `'\n'`, `'\r'`, `'\x0b'`, `'\x0c'`. -/
def isPySpace (c : Char) : Bool :=
  c == ' ' || c == '\t' || c == '\n' || c == '\r' || c.val == 11 || c.val == 12

/-- Model of Python `str.strip()` on the characters of a string. -/
def pyStripC (cs : List Char) : List Char :=
  ((cs.dropWhile isPySpace).reverse.dropWhile isPySpace).reverse

/-- Model of Python `str.split("\n")` on the characters of a string. -/
def splitLinesC : List Char → List (List Char)
  | [] => [[]]
  | c :: cs =>
    if c = '\n' then [] :: splitLinesC cs
    else
      match splitLinesC cs with
      | l :: ls => (c :: l) :: ls
      | [] => [[c]]

/-- Inverse of `splitLinesC`: join lines with `'\n'`. -/
def joinLinesC : List (List Char) → List Char
  | [] => []
  | [l] => l
  | l :: l' :: ls => l ++ '\n' :: joinLinesC (l' :: ls)

/-- The frontmatter delimiter `"---"` as a character list. -/
def dashes : List Char := ['-', '-', '-']

/-- A parsed frontmatter value: Python leaves values as `str` unless they
are one of the boolean tokens, in which case they become `bool`. -/
inductive FmValue where
  | str : String → FmValue
  | bool : Bool → FmValue
  deriving DecidableEq

/-- Python truthiness of a frontmatter value (`bool(v)`): a boolean is
itself, a string is truthy iff non-empty. -/
def truthy : FmValue → Bool
  | .bool b => b
  | .str s => !s.data.isEmpty

/-- Model of Python `dict` lookup `d.get(k)` for a dict built by repeated
`d[k] = v` assignments, represented as the list of assignments in order:
the last assignment to a key wins. -/
def dictGet (m : List (String × FmValue)) (k : String) : Option FmValue :=
  (m.reverse.find? (fun p => p.1 == k)).map (fun p => p.2)

/-- Model of Python `d.get(k, default)`. -/
def dictGetD (m : List (String × FmValue)) (k : String) (d : FmValue) : FmValue :=
  (dictGet m k).getD d

/-- Value coercion of `parse_frontmatter` (cm.py lines 417-422): the
case-insensitive tokens `true`/`yes` become `True`, `false`/`no` become
`False`, anything else stays a string.  The argument is the
already-stripped value. -/
def coerceVal (v : List Char) : FmValue :=
  let lv := v.map Char.toLower
  if lv == "true".data || lv == "yes".data then .bool true
  else if lv == "false".data || lv == "no".data then .bool false
  else .str (String.mk v)

/-- The loop body of `parse_frontmatter` (cm.py lines 411-423): scan lines,
stop at a line whose strip is `---`, record each colon line as key/value. -/
def parseLines : List (List Char) → List (String × FmValue) → List (String × FmValue)
  | [], acc => acc
  | line :: rest, acc =>
    if pyStripC line == dashes then acc
    else if line.contains ':' then
      parseLines rest
        (acc ++ [(String.mk (pyStripC (line.takeWhile (fun c => c != ':'))),
                  coerceVal (pyStripC ((line.dropWhile (fun c => c != ':')).tail)))])
    else parseLines rest acc

/-- Model of `SimpleModuleManager.parse_frontmatter` (cm.py lines 406-424):
if the content starts with `---`, split into lines and scan the lines after
the first, breaking at a line that strips to `---`; otherwise return the
empty mapping. -/
def parse_frontmatter (content : String) : List (String × FmValue) :=
  if dashes.isPrefixOf content.data then
    parseLines ((splitLinesC content.data).drop 1) []
  else []

/-- Model of Python `s.split(sep, 2)` restricted to `sep = "---"`: split at
the first two non-overlapping occurrences, giving at most three parts. -/
def splitFirst (sep : List Char) : List Char → Option (List Char × List Char)
  | [] => none
  | c :: rest =>
    if sep.isPrefixOf (c :: rest) then some ([], (c :: rest).drop sep.length)
    else
      match splitFirst sep rest with
      | none => none
      | some (a, b) => some (c :: a, b)

/-- Model of `content.split("---", 2)`. -/
def split3 (content : List Char) : List (List Char) :=
  match splitFirst dashes content with
  | none => [content]
  | some (a, r) =>
    match splitFirst dashes r with
    | none => [a, r]
    | some (b, r2) => [a, b, r2]

/-- Header stripping step of `compile` (cm.py lines 391-395): if the content
starts with `---`, split on `---` into at most three parts and, when there
are three, keep the stripped third part; otherwise keep the content. -/
def stripHeader (content : String) : String :=
  if dashes.isPrefixOf content.data then
    match split3 content.data with
    | [_, _, c] => String.mk (pyStripC c)
    | _ => content
  else content

/-- Header region of a document as described by the spec: the lines after
the opening delimiter, up to (excluding) the next line that strips to the
delimiter. -/
def headerRegion (content : String) : List (List Char) :=
  ((splitLinesC content.data).drop 1).takeWhile (fun l => !(pyStripC l == dashes))

/-- One line of the spec's parsing contract: a line containing a colon is
split on the first colon, both halves trimmed, and the value coerced;
a line without a colon is ignored. -/
def specParseLine (acc : List (String × FmValue)) (line : List Char) :
    List (String × FmValue) :=
  if line.contains ':' then
    acc ++ [(String.mk (pyStripC (line.takeWhile (fun c => c != ':'))),
             coerceVal (pyStripC ((line.dropWhile (fun c => c != ':')).tail)))]
  else acc

/-- Frontmatter parsing as worded by the spec (claim C6): empty mapping
without a leading delimiter, otherwise fold the per-line rule over the
header region. -/
def specParseFm (content : String) : List (String × FmValue) :=
  if dashes.isPrefixOf content.data then
    (headerRegion content).foldl specParseLine []
  else []

/-- Frontmatter parsing that scans every line after the first, with no
stopping condition (claim C10's description of the no-closing-delimiter
case). -/
def specParseAll (content : String) : List (String × FmValue) :=
  if dashes.isPrefixOf content.data then
    ((splitLinesC content.data).drop 1).foldl specParseLine []
  else []

/-- Nonempty digit string to a natural number, base 10 (ASCII digits). -/
def digitsToNat (cs : List Char) : Option Nat :=
  if cs.isEmpty then none
  else if cs.all Char.isDigit then
    some (cs.foldl (fun n c => n * 10 + (c.toNat - 48)) 0)
  else none

/-- Model of Python `int(s)` on an already-stripped string: an optional
sign followed by decimal digits; anything else raises `ValueError`,
modelled as `none`.  (Unicode digits and `_` separators are not
modelled; the repository never produces them.) -/
def parsePyInt (cs : List Char) : Option Int :=
  match cs with
  | '+' :: rest => (digitsToNat rest).map Int.ofNat
  | '-' :: rest => (digitsToNat rest).map (fun n => -(Int.ofNat n))
  | _ => (digitsToNat cs).map Int.ofNat

/-- Model of Python `int(v)` for a frontmatter value: `int(True) = 1`,
`int(False) = 0`, and strings go through `parsePyInt`. -/
def pyIntOfFm : FmValue → Option Int
  | .bool b => some (if b then 1 else 0)
  | .str s => parsePyInt s.data

/-- The `int(metadata.get("priority", 5))` step of `compile`
(cm.py line 364): a missing key defaults to the integer 5; a present
value is coerced with `int`, which can fail. -/
def priorityValue (metadata : List (String × FmValue)) : Option Int :=
  match dictGet metadata "priority" with
  | none => some 5
  | some v => pyIntOfFm v

/-- A scanned module file: its path and raw text content. -/
structure Doc where
  path : String
  content : String
  deriving DecidableEq

/-- The in-memory module record `compile` builds per surviving file
(cm.py lines 360-365). -/
structure CmModule where
  path : String
  content : String
  metadata : List (String × FmValue)
  priority : Int
  deriving DecidableEq

/-- One iteration of the scan loop of `compile` (cm.py lines 354-365):
skip whitespace-only content, parse frontmatter, skip when the `active`
value (default `True`) is falsy, otherwise build the module record —
where the `int` coercion of the priority can raise (outer `none`). -/
def scanDoc (d : Doc) : Option (Option CmModule) :=
  if (pyStripC d.content.data).isEmpty then some none
  else if truthy (dictGetD (parse_frontmatter d.content) "active" (FmValue.bool true)) then
    match priorityValue (parse_frontmatter d.content) with
    | some p => some (some ⟨d.path, d.content, parse_frontmatter d.content, p⟩)
    | none => none
  else some none

/-- The whole scan loop of `compile`: all module records in scan order,
or `none` when some priority coercion raises. -/
def collectModules : List Doc → Option (List CmModule)
  | [] => some []
  | d :: ds =>
    match scanDoc d with
    | none => none
    | some none => collectModules ds
    | some (some m) => (collectModules ds).map (fun ms => m :: ms)

/-- Insert into a descending-priority sorted list, before the first
element of priority ≤ the new one (so earlier-scanned modules precede
later ones on ties). -/
def insertDesc (m : CmModule) : List CmModule → List CmModule
  | [] => [m]
  | x :: xs => if x.priority ≤ m.priority then m :: x :: xs else x :: insertDesc m xs

/-- Model of `all_modules.sort(key=lambda x: x["priority"], reverse=True)`
(cm.py line 368): the stable descending sort by priority, realised as a
stable insertion sort (extensionally equal to Python's stable sort). -/
def sortDesc : List CmModule → List CmModule
  | [] => []
  | m :: ms => insertDesc m (sortDesc ms)

/-- The fixed leading lines of the compiled output (cm.py lines 371-386),
with the generation timestamp and the detected project type supplied as
parameters. -/
def headerLines (ts : String) (count : Nat) (pt : Option String) : List String :=
  ["# CLAUDE.md - Project Context",
   "Generated: " ++ ts,
   "Modules: " ++ toString count,
   "",
   "## 📝 This file is auto-generated from .claude/modules/",
   "To update: Edit modules in `.claude/modules/` then run `python cm.py compile`",
   "Commands: `python cm.py list` | `python cm.py activate <module>` | `python cm.py deactivate <module>`",
   ""] ++
  (match pt with
   | some t => ["Project Type: " ++ t, ""]
   | none => [])

/-- The four lines appended per module (cm.py lines 397-400): stripped
body, blank, separator, blank. -/
def moduleBlock (m : CmModule) : List String :=
  [stripHeader m.content, "", "---", ""]

/-- The surviving modules in output order: scan, then sort descending. -/
def sortedModules (store : List Doc) : Option (List CmModule) :=
  (collectModules store).map sortDesc

/-- Model of `SimpleModuleManager.compile` (cm.py lines 347-404) up to the
final `"\n".join`: the list of output lines, or `none` when the scan
raises.  The store is the list of `*.md` files `rglob` yields, in
traversal order. -/
def compileLines (store : List Doc) (ts : String) (pt : Option String) :
    Option (List String) :=
  (sortedModules store).map
    (fun ms => headerLines ts ms.length pt ++ (ms.map moduleBlock).flatten)

/-- The per-file `active` entry of `list_modules` (cm.py line 456):
`metadata.get("active", False)`. -/
def listActiveValue (content : String) : FmValue :=
  dictGetD (parse_frontmatter content) "active" (FmValue.bool false)

/-- The two filter conditions of the scan loop (cm.py lines 356 and 359):
non-whitespace content, and an `active` value (default `True`) that is
truthy. -/
def keepDoc (d : Doc) : Bool :=
  !(pyStripC d.content.data).isEmpty &&
  truthy (dictGetD (parse_frontmatter d.content) "active" (FmValue.bool true))

/-- Output layout as worded by the amended claim C7: title line,
timestamp line, module-count line, a blank line, three fixed notice
lines, a blank line, optionally a project-type line and a blank line,
then per body: the body, a blank line, a separator line, a blank line. -/
def renderSpec (ts : String) (count : Nat) (pt : Option String)
    (bodies : List String) : List String :=
  ["# CLAUDE.md - Project Context",
   "Generated: " ++ ts,
   "Modules: " ++ toString count,
   "",
   "## 📝 This file is auto-generated from .claude/modules/",
   "To update: Edit modules in `.claude/modules/` then run `python cm.py compile`",
   "Commands: `python cm.py list` | `python cm.py activate <module>` | `python cm.py deactivate <module>`",
   ""] ++
  (match pt with
   | some t => ["Project Type: " ++ t, ""]
   | none => []) ++
  bodies.foldr (fun b acc => b :: "" :: "---" :: "" :: acc) []

/-- The regex key pattern `active:` of `activate`/`deactivate`. -/
def activePat : List Char := "active:".data

/-- Python regex `\w` restricted to ASCII: letters, digits, underscore. -/
def isPyWord (c : Char) : Bool :=
  c.isAlphanum || c == '_'

/-- The `\w+` tail of the pattern: a nonempty greedy word run, returning
the remainder, or `none` when the next character is not a word character. -/
def matchWord : List Char → Option (List Char)
  | [] => none
  | c :: rest => if isPyWord c then some ((c :: rest).dropWhile isPyWord) else none

/-- One match attempt of the regex `^active:\s*\w+` at a line-start
position: the literal key, then a greedy whitespace run (which may cross
newlines), then a nonempty greedy word run.  Returns the remainder after
the match, or `none` when there is no match here. -/
def matchActive (cs : List Char) : Option (List Char) :=
  if activePat.isPrefixOf cs then
    matchWord ((cs.drop activePat.length).dropWhile isPySpace)
  else none

/-- The scan of `re.sub(r'^active:\s*\w+', repl, content, flags=re.MULTILINE)`
(cm.py lines 476 and 491): walk the text left to right, and at every
line-start position replace a leftmost match by `repl`, continuing after
it; all other characters are copied.  The fuel argument only bounds the
recursion and every step consumes at least one character, so fuel equal
to the length of the text is always enough. -/
def subGo (repl : List Char) : Nat → Bool → List Char → List Char
  | 0, _, cs => cs
  | _ + 1, _, [] => []
  | fuel + 1, atStart, c :: rest =>
    if atStart then
      match matchActive (c :: rest) with
      | some rem => repl ++ subGo repl fuel false rem
      | none => c :: subGo repl fuel (c == '\n') rest
    else c :: subGo repl fuel (c == '\n') rest

/-- Model of the `re.sub` call rewriting the `active:` field to the target
boolean literal. -/
def subActive (target : String) (content : String) : String :=
  String.mk (subGo ("active: " ++ target).data content.data.length true content.data)

/-- The per-line effect of the substitution when the match does not cross
a newline: rewrite the matched portion, keep the rest of the line. -/
def rewriteLineC (repl : List Char) (l : List Char) : List Char :=
  match matchActive l with
  | some rem => repl ++ rem
  | none => l

/-- A line is cross-safe when, if it starts with `active:`, some
non-whitespace character follows on the same line — so the greedy `\s*`
of the pattern cannot run past the end of the line. -/
def crossSafe (l : List Char) : Bool :=
  !(activePat.isPrefixOf l) || !((l.drop activePat.length).dropWhile isPySpace).isEmpty

/-- Substring test: does the needle occur contiguously in the haystack. -/
def containsSub (needle : List Char) : List Char → Bool
  | [] => needle.isEmpty
  | c :: rest => needle.isPrefixOf (c :: rest) || containsSub needle rest

/-- Model of `MODULE_DIR.rglob(f"*{module_name}*.md")` membership for a
fragment without glob metacharacters: the filename ends in `.md` and
contains the fragment before that suffix. -/
def fileMatch (frag name : String) : Bool :=
  ".md".data.isSuffixOf name.data &&
  containsSub frag.data (name.data.take (name.data.length - 3))

/-- Model of `SimpleModuleManager.activate` (cm.py lines 470-484) on a
store of (filename, content) pairs: rewrite every matched file's content,
leave the rest untouched. -/
def activateStore (frag : String) (store : List (String × String)) :
    List (String × String) :=
  store.map (fun f => if fileMatch frag f.1 then (f.1, subActive "true" f.2) else f)

/-- Model of `SimpleModuleManager.deactivate` (cm.py lines 486-499). -/
def deactivateStore (frag : String) (store : List (String × String)) :
    List (String × String) :=
  store.map (fun f => if fileMatch frag f.1 then (f.1, subActive "false" f.2) else f)

/-- The `found` flag reported by `activate`/`deactivate`: whether any
filename matched the fragment. -/
def toggleFound (frag : String) (store : List (String × String)) : Bool :=
  store.any (fun f => fileMatch frag f.1)

lemma parseLines_eq (ls : List (List Char)) (acc : List (String × FmValue)) :
    parseLines ls acc =
      (ls.takeWhile (fun l => !(pyStripC l == dashes))).foldl specParseLine acc := by
  induction ls generalizing acc with
  | nil => simp [parseLines]
  | cons l rest ih =>
    by_cases h : pyStripC l == dashes
    · simp [parseLines, h, List.takeWhile_cons]
    · simp [parseLines, h, List.takeWhile_cons, ih, specParseLine]
      split <;> rfl

lemma takeWhile_all {α : Type} {p : α → Bool} :
    ∀ l : List α, (∀ a ∈ l, p a = true) → l.takeWhile p = l
  | [], _ => rfl
  | a :: l, h => by
    have ha := h a (by simp)
    simp [List.takeWhile_cons, ha, takeWhile_all l (fun x hx => h x (by simp [hx]))]

/-- C9: header stripping leaves a body that does not begin with the
delimiter unchanged (idempotence on already-stripped content). -/
theorem C9_strip_noheader_id (content : String)
    (h : dashes.isPrefixOf content.data = false) : stripHeader content = content := by
  unfold stripHeader
  rw [h]
  simp

theorem C9_witness : stripHeader "plain body, no header" = "plain body, no header" :=
  C9_strip_noheader_id "plain body, no header" (by decide)

/-- C6: the frontmatter parser returns the empty mapping when the content
does not begin with the delimiter, and otherwise behaves exactly as the
spec's per-line contract over the header region: each colon line is split
on the first colon, trimmed, and coerced (`true`/`yes` ↦ true,
`false`/`no` ↦ false, case-insensitively, everything else a string),
colon-free lines ignored. -/
theorem C6_fm_parse_spec (content : String) :
    (dashes.isPrefixOf content.data = false → parse_frontmatter content = []) ∧
    parse_frontmatter content = specParseFm content := by
  constructor
  · intro h
    unfold parse_frontmatter
    rw [h]
    simp
  · unfold parse_frontmatter specParseFm headerRegion
    by_cases h : dashes.isPrefixOf content.data
    · rw [if_pos h, if_pos h, parseLines_eq]
    · rw [if_neg h, if_neg h]

theorem C6_witness :
    parse_frontmatter "x: 1" = [] ∧
    parse_frontmatter "---\nA: YES\nnocolon\nb : 0\n---\nbody: text" =
      [("A", FmValue.bool true), ("b", FmValue.str "0")] := by
  constructor
  · exact (C6_fm_parse_spec "x: 1").1 (by decide)
  · have h := (C6_fm_parse_spec "---\nA: YES\nnocolon\nb : 0\n---\nbody: text").2
    rw [h]
    decide

/-- C10: when the content starts with the delimiter but no later line
strips to the delimiter, the parser scans every remaining line of the
document — body lines included — recording each colon line, instead of
returning empty metadata or stopping at the header region. -/
theorem C10_parse_scans_all (content : String)
    (h : dashes.isPrefixOf content.data = true)
    (hnd : ∀ l ∈ (splitLinesC content.data).drop 1, (pyStripC l == dashes) = false) :
    parse_frontmatter content = specParseAll content := by
  unfold parse_frontmatter specParseAll
  rw [if_pos h, if_pos h, parseLines_eq, takeWhile_all]
  intro a ha
  simp [hnd a ha]

theorem C10_witness :
    parse_frontmatter "---\nid: a\nSome body text\nsee url: x" =
      specParseAll "---\nid: a\nSome body text\nsee url: x" ∧
    dictGet (parse_frontmatter "---\nid: a\nSome body text\nsee url: x") "see url" =
      some (FmValue.str "x") := by
  constructor
  · exact C10_parse_scans_all "---\nid: a\nSome body text\nsee url: x"
      (by decide) (by decide)
  · decide

lemma keepDoc_congr (d d' : Doc) (h : d.content = d'.content) :
    keepDoc d = keepDoc d' := by
  unfold keepDoc
  rw [h]

lemma scanDoc_eq_none_iff (d : Doc) :
    scanDoc d = none ↔
      keepDoc d = true ∧ priorityValue (parse_frontmatter d.content) = none := by
  cases he : (pyStripC d.content.data).isEmpty with
  | true => simp [scanDoc, keepDoc, he]
  | false =>
    cases ht : truthy (dictGetD (parse_frontmatter d.content) "active" (FmValue.bool true)) with
    | false => simp [scanDoc, keepDoc, he, ht]
    | true =>
      cases hp : priorityValue (parse_frontmatter d.content) with
      | none => simp [scanDoc, keepDoc, he, ht, hp]
      | some p => simp [scanDoc, keepDoc, he, ht, hp]

lemma scanDoc_some (d : Doc) (m : CmModule) (h : scanDoc d = some (some m)) :
    keepDoc d = true ∧ m.content = d.content ∧
      priorityValue (parse_frontmatter d.content) = some m.priority := by
  cases he : (pyStripC d.content.data).isEmpty with
  | true => rw [scanDoc, if_pos he] at h; exact absurd h (by simp)
  | false =>
    cases ht : truthy (dictGetD (parse_frontmatter d.content) "active" (FmValue.bool true)) with
    | false => simp [scanDoc, he, ht] at h
    | true =>
      cases hp : priorityValue (parse_frontmatter d.content) with
      | none => simp [scanDoc, he, ht, hp] at h
      | some p =>
        simp [scanDoc, he, ht, hp] at h
        subst h
        simp [keepDoc, he, ht, hp]

lemma scanDoc_of_keep (d : Doc) (hk : keepDoc d = true) (p : Int)
    (hp : priorityValue (parse_frontmatter d.content) = some p) :
    scanDoc d = some (some ⟨d.path, d.content, parse_frontmatter d.content, p⟩) := by
  unfold keepDoc at hk
  rw [Bool.and_eq_true] at hk
  obtain ⟨h1, h2⟩ := hk
  rw [Bool.not_eq_true'] at h1
  simp [scanDoc, h1, h2, hp]

lemma scanDoc_ne_none_iff (d : Doc) :
    scanDoc d ≠ none ↔
      (keepDoc d = true → (priorityValue (parse_frontmatter d.content)).isSome = true) := by
  rw [Ne, scanDoc_eq_none_iff]
  cases hp : priorityValue (parse_frontmatter d.content) <;> simp

lemma collectModules_isSome_iff (store : List Doc) :
    (collectModules store).isSome = true ↔ ∀ d ∈ store, scanDoc d ≠ none := by
  induction store with
  | nil => simp [collectModules]
  | cons d ds ih =>
    cases h : scanDoc d with
    | none => simp [collectModules, h]
    | some o =>
      cases o with
      | none => simp [collectModules, h, ih]
      | some m =>
        cases hds : collectModules ds with
        | none => simp [collectModules, h, hds, ih.symm]
        | some ms => simp [collectModules, h, hds, ih.symm]

lemma collectModules_mem (store : List Doc) (ms : List CmModule)
    (h : collectModules store = some ms) (m : CmModule) :
    m ∈ ms ↔ ∃ d ∈ store, scanDoc d = some (some m) := by
  induction store generalizing ms with
  | nil =>
    rw [collectModules] at h
    injection h with h
    subst h
    simp
  | cons d ds ih =>
    cases hd : scanDoc d with
    | none => rw [collectModules, hd] at h; exact absurd h (by simp)
    | some o =>
      cases o with
      | none =>
        rw [collectModules, hd] at h
        simp [ih ms h, hd]
      | some m0 =>
        rw [collectModules, hd] at h
        cases hds : collectModules ds with
        | none => rw [hds] at h; exact absurd h (by simp)
        | some ms' =>
          rw [hds] at h
          simp only [Option.map_some'] at h
          injection h with h
          subst h
          constructor
          · intro hm
            rcases List.mem_cons.mp hm with rfl | hm'
            · exact ⟨d, List.mem_cons_self d ds, hd⟩
            · obtain ⟨d', hd', hs⟩ := (ih ms' hds).mp hm'
              exact ⟨d', List.mem_cons_of_mem d hd', hs⟩
          · rintro ⟨d', hd', hs⟩
            rcases List.mem_cons.mp hd' with rfl | hd''
            · rw [hd] at hs
              injection hs with hs
              injection hs with hs
              exact List.mem_cons.mpr (Or.inl hs.symm)
            · exact List.mem_cons.mpr (Or.inr ((ih ms' hds).mpr ⟨d', hd'', hs⟩))

lemma mem_insertDesc (m a : CmModule) : ∀ l, a ∈ insertDesc m l ↔ a = m ∨ a ∈ l
  | [] => by simp [insertDesc]
  | x :: xs => by
    by_cases h : x.priority ≤ m.priority
    · simp [insertDesc, h]
    · simp only [insertDesc, h, if_false, List.mem_cons, mem_insertDesc m a xs]
      tauto

lemma mem_sortDesc (a : CmModule) : ∀ l, a ∈ sortDesc l ↔ a ∈ l
  | [] => by simp [sortDesc]
  | m :: ms => by
    simp [sortDesc, mem_insertDesc, mem_sortDesc a ms]

lemma pairwise_insertDesc (m : CmModule) :
    ∀ l, l.Pairwise (fun a b => b.priority ≤ a.priority) →
      (insertDesc m l).Pairwise (fun a b => b.priority ≤ a.priority)
  | [], _ => by simp [insertDesc]
  | x :: xs, hp => by
    rcases List.pairwise_cons.mp hp with ⟨hx, hxs⟩
    by_cases h : x.priority ≤ m.priority
    · rw [insertDesc, if_pos h]
      refine List.pairwise_cons.mpr ⟨?_, hp⟩
      intro b hb
      rcases List.mem_cons.mp hb with rfl | hb'
      · exact h
      · exact le_trans (hx b hb') h
    · rw [insertDesc, if_neg h]
      refine List.pairwise_cons.mpr ⟨?_, pairwise_insertDesc m xs hxs⟩
      intro b hb
      rcases (mem_insertDesc m b xs).mp hb with rfl | hb'
      · exact le_of_lt (lt_of_not_le h)
      · exact hx b hb'

lemma pairwise_sortDesc : ∀ l, (sortDesc l).Pairwise (fun a b => b.priority ≤ a.priority)
  | [] => by simp [sortDesc]
  | m :: ms => pairwise_insertDesc m (sortDesc ms) (pairwise_sortDesc ms)

lemma sortedModules_some (store : List Doc) (ms : List CmModule)
    (hms : sortedModules store = some ms) :
    ∃ ms0, collectModules store = some ms0 ∧ ms = sortDesc ms0 := by
  unfold sortedModules at hms
  cases hc : collectModules store with
  | none => rw [hc] at hms; exact absurd hms (by simp)
  | some ms0 =>
    rw [hc] at hms
    simp only [Option.map_some'] at hms
    injection hms with hms
    exact ⟨ms0, rfl, hms.symm⟩

lemma keepDoc_iff (d : Doc) :
    keepDoc d = true ↔
      (pyStripC d.content.data ≠ [] ∧
       Option.all truthy (dictGet (parse_frontmatter d.content) "active") = true) := by
  unfold keepDoc dictGetD
  cases h : dictGet (parse_frontmatter d.content) "active" <;>
    simp [h, truthy, List.isEmpty_iff]

lemma flattenBlocks_getElem :
    ∀ (ms : List CmModule) (k : Nat) (m : CmModule), ms[k]? = some m →
      ((ms.map moduleBlock).flatten)[4 * k]? = some (stripHeader m.content)
  | [], k, m => by simp
  | m0 :: rest, 0, m => by
    intro h
    simp only [List.getElem?_cons_zero, Option.some_inj] at h
    subst h
    simp [moduleBlock]
  | m0 :: rest, k + 1, m => by
    intro h
    have h' : rest[k]? = some m := by simpa using h
    have ih := flattenBlocks_getElem rest k m h'
    have hlen : (moduleBlock m0).length = 4 := by simp [moduleBlock]
    rw [List.map_cons, List.flatten_cons,
        List.getElem?_append_right (by rw [hlen]; omega)]
    rw [hlen]
    have he : 4 * (k + 1) - 4 = 4 * k := by omega
    rw [he, ih]

lemma flattenBlocks_eq_foldr :
    ∀ ms : List CmModule,
      (ms.map moduleBlock).flatten =
        (ms.map (fun m => stripHeader m.content)).foldr
          (fun b acc => b :: "" :: "---" :: "" :: acc) []
  | [] => rfl
  | m :: rest => by
    simp [moduleBlock, flattenBlocks_eq_foldr rest]

/-- C1: a scanned document's body survives into the compiled module list
iff its content is not whitespace-only and its parsed frontmatter either
has no `active` key or has a truthy coerced `active` value; in particular
`active: false` excludes and a missing `active` key includes. -/
theorem C1_active_filter (store : List Doc) (ms : List CmModule)
    (hms : sortedModules store = some ms) :
    ∀ d ∈ store,
      ((∃ m ∈ ms, m.content = d.content) ↔
        (pyStripC d.content.data ≠ [] ∧
         Option.all truthy (dictGet (parse_frontmatter d.content) "active") = true)) := by
  intro d hd
  obtain ⟨ms0, hc, rfl⟩ := sortedModules_some store ms hms
  rw [← keepDoc_iff]
  constructor
  · rintro ⟨m, hm, hcontent⟩
    rw [mem_sortDesc] at hm
    obtain ⟨d', hd', hscan⟩ := (collectModules_mem store ms0 hc m).mp hm
    obtain ⟨hk', hcon', _⟩ := scanDoc_some d' m hscan
    rw [keepDoc_congr d d' (by rw [← hcontent, hcon'])]
    exact hk'
  · intro hk
    have hne : scanDoc d ≠ none :=
      (collectModules_isSome_iff store).mp (by rw [hc]; rfl) d hd
    cases hp : priorityValue (parse_frontmatter d.content) with
    | none =>
      exact absurd ((scanDoc_eq_none_iff d).mpr ⟨hk, hp⟩) hne
    | some p =>
      refine ⟨⟨d.path, d.content, parse_frontmatter d.content, p⟩, ?_, rfl⟩
      rw [mem_sortDesc]
      exact (collectModules_mem store ms0 hc _).mpr ⟨d, hd, scanDoc_of_keep d hk p hp⟩

theorem C1_witness :
    (∃ m ∈ [(⟨"i.md", "Body with no header", [], 5⟩ : CmModule)],
       m.content = "Body with no header") ∧
    ¬(∃ m ∈ [(⟨"i.md", "Body with no header", [], 5⟩ : CmModule)],
       m.content = "---\nactive: false\n---\nExcluded body") := by
  have h1 := C1_active_filter
    [⟨"i.md", "Body with no header"⟩, ⟨"e.md", "---\nactive: false\n---\nExcluded body"⟩]
    [⟨"i.md", "Body with no header", [], 5⟩] (by decide)
    ⟨"i.md", "Body with no header"⟩ (by decide)
  have h2 := C1_active_filter
    [⟨"i.md", "Body with no header"⟩, ⟨"e.md", "---\nactive: false\n---\nExcluded body"⟩]
    [⟨"i.md", "Body with no header", [], 5⟩] (by decide)
    ⟨"e.md", "---\nactive: false\n---\nExcluded body"⟩ (by decide)
  exact ⟨h1.mpr (by decide), fun hx => absurd (h2.mp hx) (by decide)⟩

/-- C2: among the surviving modules in the compiled order, a strictly
higher coerced priority means the stripped body appears at a strictly
earlier line of the compiled output. -/
theorem C2_priority_order (store : List Doc) (ts : String) (pt : Option String)
    (ms : List CmModule) (L : List String)
    (hms : sortedModules store = some ms) (hL : compileLines store ts pt = some L) :
    ∀ (i j : Nat) (mi mj : CmModule),
      ms[i]? = some mi → ms[j]? = some mj → mj.priority < mi.priority →
      ∃ a b : Nat, a < b ∧ L[a]? = some (stripHeader mi.content) ∧
        L[b]? = some (stripHeader mj.content) := by
  intro i j mi mj hi hj hlt
  have hLval : L = headerLines ts ms.length pt ++ (ms.map moduleBlock).flatten := by
    unfold compileLines at hL
    rw [hms] at hL
    simp only [Option.map_some'] at hL
    injection hL with hL
    exact hL.symm
  obtain ⟨ms0, hc, rfl⟩ := sortedModules_some store ms hms
  have hpw := pairwise_sortDesc ms0
  obtain ⟨hilen, hig⟩ := List.getElem?_eq_some.mp hi
  obtain ⟨hjlen, hjg⟩ := List.getElem?_eq_some.mp hj
  have hij : i < j := by
    rcases Nat.lt_trichotomy i j with h | h | h
    · exact h
    · exfalso
      subst h
      rw [hig] at hjg
      subst hjg
      exact lt_irrefl _ hlt
    · exfalso
      have hp := List.pairwise_iff_getElem.mp hpw j i hjlen hilen h
      rw [hig, hjg] at hp
      exact absurd hlt (not_lt.mpr hp)
  refine ⟨(headerLines ts (sortDesc ms0).length pt).length + 4 * i,
          (headerLines ts (sortDesc ms0).length pt).length + 4 * j, by omega, ?_, ?_⟩
  · rw [hLval, List.getElem?_append_right (by omega)]
    have he : (headerLines ts (sortDesc ms0).length pt).length + 4 * i -
        (headerLines ts (sortDesc ms0).length pt).length = 4 * i := by omega
    rw [he]
    exact flattenBlocks_getElem _ i mi hi
  · rw [hLval, List.getElem?_append_right (by omega)]
    have he : (headerLines ts (sortDesc ms0).length pt).length + 4 * j -
        (headerLines ts (sortDesc ms0).length pt).length = 4 * j := by omega
    rw [he]
    exact flattenBlocks_getElem _ j mj hj

theorem C2_witness :
    ∃ a b : Nat, a < b ∧
      ["# CLAUDE.md - Project Context", "Generated: T", "Modules: 2", "",
       "## 📝 This file is auto-generated from .claude/modules/",
       "To update: Edit modules in `.claude/modules/` then run `python cm.py compile`",
       "Commands: `python cm.py list` | `python cm.py activate <module>` | `python cm.py deactivate <module>`",
       "", "BBB", "", "---", "", "AAA", "", "---", ""][a]? =
        some (stripHeader "---\npriority: 9\n---\nBBB") ∧
      ["# CLAUDE.md - Project Context", "Generated: T", "Modules: 2", "",
       "## 📝 This file is auto-generated from .claude/modules/",
       "To update: Edit modules in `.claude/modules/` then run `python cm.py compile`",
       "Commands: `python cm.py list` | `python cm.py activate <module>` | `python cm.py deactivate <module>`",
       "", "BBB", "", "---", "", "AAA", "", "---", ""][b]? =
        some (stripHeader "---\npriority: 1\n---\nAAA") :=
  C2_priority_order
    [⟨"a.md", "---\npriority: 1\n---\nAAA"⟩, ⟨"b.md", "---\npriority: 9\n---\nBBB"⟩]
    "T" none
    [⟨"b.md", "---\npriority: 9\n---\nBBB", [("priority", FmValue.str "9")], 9⟩,
     ⟨"a.md", "---\npriority: 1\n---\nAAA", [("priority", FmValue.str "1")], 1⟩]
    _ (by decide) (by decide) 0 1
    ⟨"b.md", "---\npriority: 9\n---\nBBB", [("priority", FmValue.str "9")], 9⟩
    ⟨"a.md", "---\npriority: 1\n---\nAAA", [("priority", FmValue.str "1")], 1⟩
    (by decide) (by decide) (by decide)

/-- C3 counterexample: a module whose `priority` value is the non-numeric
string `high` makes compile fail (`int("high")` raises `ValueError`),
instead of succeeding with priority 5 as the claim states. -/
theorem C3_counterexample :
    compileLines [⟨"m.md", "---\npriority: high\nactive: yes\n---\nBody"⟩] "T" none =
      none := by decide

/-- C3 (amended): compile succeeds exactly when every surviving module's
`priority` coercion succeeds — a missing `priority` key is treated as the
integer 5, but a non-numeric string makes compile fail. -/
theorem C3_missing_priority_five (store : List Doc) :
    ((collectModules store).isSome = true ↔
       ∀ d ∈ store, keepDoc d = true →
         (priorityValue (parse_frontmatter d.content)).isSome = true) ∧
    (∀ d ∈ store, ∀ m : CmModule, scanDoc d = some (some m) →
       dictGet (parse_frontmatter d.content) "priority" = none → m.priority = 5) := by
  constructor
  · rw [collectModules_isSome_iff]
    exact forall_congr' fun d => forall_congr' fun _ => scanDoc_ne_none_iff d
  · intro d _ m hscan hnone
    have hp := (scanDoc_some d m hscan).2.2
    unfold priorityValue at hp
    rw [hnone] at hp
    injection hp with hp
    exact hp.symm

theorem C3_witness :
    (collectModules [⟨"g.md", "---\nactive: yes\n---\nGood body"⟩]).isSome = true ∧
    (⟨"g.md", "---\nactive: yes\n---\nGood body",
       [("active", FmValue.bool true)], 5⟩ : CmModule).priority = 5 := by
  have h := C3_missing_priority_five [⟨"g.md", "---\nactive: yes\n---\nGood body"⟩]
  exact ⟨h.1.mpr (by decide),
    h.2 ⟨"g.md", "---\nactive: yes\n---\nGood body"⟩ (by simp) _ (by decide) (by decide)⟩

/-- C5 counterexample: a module file with no header block parses to empty
metadata, and `list_modules` reports it as inactive (`metadata.get("active",
False)` is falsy), not active as the claim states. -/
theorem C5_counterexample :
    parse_frontmatter "# Notes\nJust body text" = [] ∧
    truthy (listActiveValue "# Notes\nJust body text") = false := by decide

/-- C5 (amended): in the listing operation, the default for a missing
`active` key is `False`: any module whose parsed frontmatter has no
`active` key — in particular any module without a header block — is
reported as inactive. -/
theorem C5_listing_default_false (content : String)
    (h : dictGet (parse_frontmatter content) "active" = none) :
    truthy (listActiveValue content) = false := by
  unfold listActiveValue dictGetD
  rw [h]
  rfl

theorem C5_witness : truthy (listActiveValue "plain module body") = false :=
  C5_listing_default_false "plain module body" (by decide)

/-- C7 counterexample: for an empty store the claimed layout — exactly a
title line, a timestamp line and a module-count line, with nothing else —
does not match the compiled output, which carries additional fixed notice
lines and blank lines. -/
theorem C7_counterexample :
    compileLines [] "T" none ≠
      some ["# CLAUDE.md - Project Context", "Generated: T", "Modules: 0"] := by decide

/-- C7 (amended): the compiled output consists, in order, of the title
line, the timestamp line, the module-count line, a blank line, three
fixed notice lines, a blank line, optionally a project-type line followed
by a blank line, and then for every surviving module in sorted order its
header-stripped body, a blank line, a separator line and a blank line. -/
theorem C7_render_layout (store : List Doc) (ts : String) (pt : Option String)
    (L : List String) (h : compileLines store ts pt = some L) :
    ∃ ms, sortedModules store = some ms ∧
      L = renderSpec ts ms.length pt (ms.map (fun m => stripHeader m.content)) := by
  unfold compileLines at h
  cases hms : sortedModules store with
  | none => rw [hms] at h; exact absurd h (by simp)
  | some ms =>
    rw [hms] at h
    simp only [Option.map_some'] at h
    injection h with h
    refine ⟨ms, rfl, ?_⟩
    rw [← h]
    unfold renderSpec headerLines
    rw [flattenBlocks_eq_foldr]

theorem C7_witness :
    ∃ ms, sortedModules ([] : List Doc) = some ms ∧
      ["# CLAUDE.md - Project Context", "Generated: T", "Modules: 0", "",
       "## 📝 This file is auto-generated from .claude/modules/",
       "To update: Edit modules in `.claude/modules/` then run `python cm.py compile`",
       "Commands: `python cm.py list` | `python cm.py activate <module>` | `python cm.py deactivate <module>`",
       ""] = renderSpec "T" ms.length none (ms.map (fun m => stripHeader m.content)) :=
  C7_render_layout [] "T" none _ (by decide)

lemma list_map_self {α : Type} (l : List α) (f : α → α) (h : ∀ a ∈ l, f a = a) :
    l.map f = l := by
  induction l with
  | nil => rfl
  | cons a t ih =>
    rw [List.map_cons, h a (List.mem_cons_self a t),
        ih (fun x hx => h x (List.mem_cons_of_mem a hx))]

/-- C8: activation toggling is pointwise and no-match is non-destructive:
the not-found report holds exactly when no filename matches, in which
case both toggles leave the whole store byte-identical; and any file
whose name does not match is left byte-identical even when other files
are toggled. -/
theorem C8_toggle_frame (frag : String) (store : List (String × String)) :
    (toggleFound frag store = false ↔ ∀ f ∈ store, fileMatch frag f.1 = false) ∧
    (toggleFound frag store = false →
      activateStore frag store = store ∧ deactivateStore frag store = store) ∧
    (∀ (i : Nat) (f : String × String), store[i]? = some f →
      fileMatch frag f.1 = false →
      (activateStore frag store)[i]? = some f ∧
      (deactivateStore frag store)[i]? = some f) := by
  refine ⟨?_, ?_, ?_⟩
  · rw [toggleFound, List.any_eq_false]
    constructor
    · intro h f hf
      exact Bool.not_eq_true _ ▸ (by simpa using h f hf)
    · intro h f hf
      simp [h f hf]
  · intro h
    have hall : ∀ f ∈ store, fileMatch frag f.1 = false := by
      rw [toggleFound, List.any_eq_false] at h
      intro f hf
      simpa using h f hf
    constructor
    · exact list_map_self store _ (fun f hf => by simp [hall f hf])
    · exact list_map_self store _ (fun f hf => by simp [hall f hf])
  · intro i f hf hm
    constructor
    · rw [activateStore, List.getElem?_map, hf]
      simp [hm]
    · rw [deactivateStore, List.getElem?_map, hf]
      simp [hm]

theorem C8_witness :
    activateStore "zzz" [("a.md", "active: yes")] = [("a.md", "active: yes")] ∧
    deactivateStore "zzz" [("a.md", "active: yes")] = [("a.md", "active: yes")] :=
  (C8_toggle_frame "zzz" [("a.md", "active: yes")]).2.1 (by decide)

lemma matchActive_skip (cs rem : List Char) (h : matchActive cs = some rem) :
    rem.length + 8 ≤ cs.length := by
  cases hp : activePat.isPrefixOf cs with
  | false => rw [matchActive, hp] at h; simp at h
  | true =>
    rw [matchActive, hp, if_pos rfl] at h
    cases hd : (cs.drop activePat.length).dropWhile isPySpace with
    | nil => rw [hd] at h; simp [matchWord] at h
    | cons c rest =>
      rw [hd, matchWord] at h
      cases hw : isPyWord c with
      | false => rw [hw] at h; simp at h
      | true =>
        rw [hw, if_pos rfl] at h
        injection h with h
        subst h
        have l1 : ((c :: rest).dropWhile isPyWord).length ≤ rest.length := by
          rw [List.dropWhile_cons, hw, if_pos rfl]
          exact (List.dropWhile_sublist isPyWord).length_le
        have l2 : (c :: rest).length ≤ (cs.drop activePat.length).length := by
          rw [← hd]
          exact (List.dropWhile_sublist isPySpace).length_le
        have l3 : (cs.drop activePat.length).length = cs.length - activePat.length := by
          simp
        have l4 : activePat.length ≤ cs.length :=
          (List.isPrefixOf_iff_prefix.mp hp).length_le
        have l5 : activePat.length = 7 := by decide
        simp only [List.length_cons] at l2
        omega

lemma subGo_step_false (repl : List Char) (g : Nat) (c : Char) (rest : List Char) :
    subGo repl (g + 1) false (c :: rest) = c :: subGo repl g (c == '\n') rest := rfl

lemma subGo_true_match (repl : List Char) (g : Nat) (c : Char) (rest rem : List Char)
    (hm : matchActive (c :: rest) = some rem) :
    subGo repl (g + 1) true (c :: rest) = repl ++ subGo repl g false rem := by
  show (match matchActive (c :: rest) with
        | some rem => repl ++ subGo repl g false rem
        | none => c :: subGo repl g (c == '\n') rest) = repl ++ subGo repl g false rem
  rw [hm]

lemma subGo_true_nomatch (repl : List Char) (g : Nat) (c : Char) (rest : List Char)
    (hm : matchActive (c :: rest) = none) :
    subGo repl (g + 1) true (c :: rest) = c :: subGo repl g (c == '\n') rest := by
  show (match matchActive (c :: rest) with
        | some rem => repl ++ subGo repl g false rem
        | none => c :: subGo repl g (c == '\n') rest) = c :: subGo repl g (c == '\n') rest
  rw [hm]

lemma subGo_fuel (repl : List Char) :
    ∀ (n : Nat) (cs : List Char) (f₁ f₂ : Nat) (s : Bool),
      cs.length ≤ n → cs.length ≤ f₁ → cs.length ≤ f₂ →
      subGo repl f₁ s cs = subGo repl f₂ s cs := by
  intro n
  induction n with
  | zero =>
    intro cs f₁ f₂ s hn _ _
    have hnil : cs = [] := List.length_eq_zero.mp (Nat.le_zero.mp hn)
    subst hnil
    cases f₁ <;> cases f₂ <;> rfl
  | succ n ih =>
    intro cs f₁ f₂ s hn h₁ h₂
    cases cs with
    | nil => cases f₁ <;> cases f₂ <;> rfl
    | cons c rest =>
      simp only [List.length_cons] at hn h₁ h₂
      cases f₁ with
      | zero => omega
      | succ g₁ =>
        cases f₂ with
        | zero => omega
        | succ g₂ =>
          cases s with
          | false =>
            rw [subGo_step_false, subGo_step_false]
            congr 1
            exact ih rest g₁ g₂ (c == '\n') (by omega) (by omega) (by omega)
          | true =>
            cases hm : matchActive (c :: rest) with
            | some rem =>
              have hlen := matchActive_skip (c :: rest) rem hm
              simp only [List.length_cons] at hlen
              rw [subGo_true_match repl g₁ c rest rem hm,
                  subGo_true_match repl g₂ c rest rem hm]
              congr 1
              exact ih rem g₁ g₂ false (by omega) (by omega) (by omega)
            | none =>
              rw [subGo_true_nomatch repl g₁ c rest hm,
                  subGo_true_nomatch repl g₂ c rest hm]
              congr 1
              exact ih rest g₁ g₂ (c == '\n') (by omega) (by omega) (by omega)

lemma subGo_chunk (repl : List Char) :
    ∀ (chunk cs' : List Char) (f : Nat),
      (∀ c ∈ chunk, c ≠ '\n') → chunk.length + cs'.length ≤ f →
      subGo repl f false (chunk ++ cs') = chunk ++ subGo repl cs'.length false cs' := by
  intro chunk
  induction chunk with
  | nil =>
    intro cs' f _ hf
    simp only [List.nil_append]
    exact subGo_fuel repl cs'.length cs' f cs'.length false (le_refl _) (by omega) (le_refl _)
  | cons c t ih =>
    intro cs' f hnl hf
    simp only [List.length_cons] at hf
    cases f with
    | zero => omega
    | succ g =>
      rw [List.cons_append, subGo_step_false]
      have hc : (c == '\n') = false := by
        simp [hnl c (List.mem_cons_self c t)]
      rw [hc]
      congr 1
      exact ih cs' g (fun x hx => hnl x (List.mem_cons_of_mem c hx)) (by omega)

lemma isPrefixOf_append_false : ∀ (pat l J : List Char), '\n' ∉ pat →
    pat.isPrefixOf l = false → pat.isPrefixOf (l ++ '\n' :: J) = false
  | [], l, J, _, h => by simp [List.isPrefixOf] at h
  | p :: ps, [], J, hnl, _ => by
    have hp : (p == '\n') = false := by
      have hne : p ≠ '\n' := fun he => hnl (he ▸ List.mem_cons_self p ps)
      simp [hne]
    simp [List.isPrefixOf, hp]
  | p :: ps, c :: cs, J, hnl, h => by
    cases hpc : p == c with
    | false => simp [List.isPrefixOf, hpc]
    | true =>
      have h2 : ps.isPrefixOf cs = false := by
        simp only [List.isPrefixOf, hpc, Bool.true_and] at h
        exact h
      have hnl' : '\n' ∉ ps := fun hm => hnl (List.mem_cons_of_mem p hm)
      simp [List.isPrefixOf, hpc, isPrefixOf_append_false ps cs J hnl' h2]

lemma isPrefixOf_append_true (pat l s : List Char) (h : pat.isPrefixOf l = true) :
    pat.isPrefixOf (l ++ s) = true ∧ (l ++ s).drop pat.length = l.drop pat.length ++ s := by
  have hpre := List.isPrefixOf_iff_prefix.mp h
  constructor
  · exact List.isPrefixOf_iff_prefix.mpr (hpre.trans (List.prefix_append l s))
  · have hlen := hpre.length_le
    rw [List.drop_append_eq_append_drop, Nat.sub_eq_zero_of_le hlen, List.drop_zero]

lemma matchActive_append (l J : List Char) (hcs : crossSafe l = true) :
    matchActive (l ++ '\n' :: J) = (matchActive l).map (fun rem => rem ++ '\n' :: J) := by
  cases hp : activePat.isPrefixOf l with
  | false =>
    have hnlp : '\n' ∉ activePat := by decide
    have hp2 := isPrefixOf_append_false activePat l J hnlp hp
    rw [matchActive, matchActive, hp, hp2]
    rfl
  | true =>
    obtain ⟨hp2, hdrop⟩ := isPrefixOf_append_true activePat l ('\n' :: J) hp
    have hnil : ((l.drop activePat.length).dropWhile isPySpace).isEmpty = false := by
      rw [crossSafe, hp] at hcs
      simpa using hcs
    rw [matchActive, matchActive, hp, hp2, if_pos rfl, if_pos rfl, hdrop,
        List.dropWhile_append, hnil]
    simp only [Bool.false_eq_true, if_false]
    cases hh : (l.drop activePat.length).dropWhile isPySpace with
    | nil => rw [hh] at hnil; simp at hnil
    | cons c rest =>
      rw [List.cons_append, matchWord, matchWord]
      cases hw : isPyWord c with
      | false => rfl
      | true =>
        rw [if_pos rfl, if_pos rfl, Option.map_some']
        congr 1
        rw [← List.cons_append, List.dropWhile_append]
        cases he : ((c :: rest).dropWhile isPyWord).isEmpty with
        | true =>
          rw [if_pos rfl]
          have hwn : isPyWord '\n' = false := by decide
          rw [List.dropWhile_cons, hwn]
          simp only [Bool.false_eq_true, if_false]
          rw [List.isEmpty_iff.mp he]
          rfl
        | false =>
          simp only [Bool.false_eq_true, if_false]

lemma splitLinesC_ne_nil : ∀ cs : List Char, splitLinesC cs ≠ []
  | [] => by simp [splitLinesC]
  | c :: cs => by
    rw [splitLinesC]
    by_cases h : c = '\n'
    · simp [h]
    · rw [if_neg h]
      cases hs : splitLinesC cs with
      | nil => simp
      | cons l ls => simp

lemma joinLinesC_splitLinesC : ∀ cs : List Char, joinLinesC (splitLinesC cs) = cs
  | [] => rfl
  | c :: cs => by
    rw [splitLinesC]
    by_cases h : c = '\n'
    · rw [if_pos h]
      cases hs : splitLinesC cs with
      | nil => exact absurd hs (splitLinesC_ne_nil cs)
      | cons l ls =>
        rw [joinLinesC, ← hs, joinLinesC_splitLinesC cs, h]
        simp
    · rw [if_neg h]
      cases hs : splitLinesC cs with
      | nil => exact absurd hs (splitLinesC_ne_nil cs)
      | cons l ls =>
        cases ls with
        | nil =>
          have hj := joinLinesC_splitLinesC cs
          rw [hs, joinLinesC] at hj
          rw [joinLinesC, hj]
        | cons l2 ls2 =>
          have hj := joinLinesC_splitLinesC cs
          rw [hs, joinLinesC] at hj
          rw [joinLinesC, List.cons_append, hj]

lemma splitLinesC_no_nl :
    ∀ (cs : List Char) (l : List Char), l ∈ splitLinesC cs → ∀ c ∈ l, c ≠ '\n'
  | [], l, hl => by
    rw [splitLinesC] at hl
    rcases List.mem_cons.mp hl with rfl | h
    · simp
    · simp at h
  | c :: cs, l, hl => by
    rw [splitLinesC] at hl
    by_cases h : c = '\n'
    · rw [if_pos h] at hl
      rcases List.mem_cons.mp hl with rfl | hl'
      · simp
      · exact splitLinesC_no_nl cs l hl'
    · rw [if_neg h] at hl
      cases hs : splitLinesC cs with
      | nil => exact absurd hs (splitLinesC_ne_nil cs)
      | cons l0 ls0 =>
        rw [hs] at hl
        rcases List.mem_cons.mp hl with rfl | hl'
        · intro x hx
          rcases List.mem_cons.mp hx with rfl | hx'
          · exact h
          · exact splitLinesC_no_nl cs l0
              (by rw [hs]; exact List.mem_cons_self l0 ls0) x hx'
        · exact splitLinesC_no_nl cs l
            (by rw [hs]; exact List.mem_cons_of_mem l0 hl')

lemma matchActive_sub (l rem : List Char) (h : matchActive l = some rem) :
    ∀ c ∈ rem, c ∈ l := by
  cases hp : activePat.isPrefixOf l with
  | false => rw [matchActive, hp] at h; simp at h
  | true =>
    rw [matchActive, hp, if_pos rfl] at h
    cases hh : (l.drop activePat.length).dropWhile isPySpace with
    | nil => rw [hh] at h; simp [matchWord] at h
    | cons c0 rest =>
      rw [hh, matchWord] at h
      cases hw : isPyWord c0 with
      | false => rw [hw] at h; simp at h
      | true =>
        rw [hw, if_pos rfl] at h
        injection h with h
        subst h
        intro x hx
        have s1 : List.Sublist ((c0 :: rest).dropWhile isPyWord) (c0 :: rest) :=
          List.dropWhile_sublist isPyWord
        have s2 : List.Sublist ((l.drop activePat.length).dropWhile isPySpace)
            (l.drop activePat.length) := List.dropWhile_sublist isPySpace
        have s3 : List.Sublist (l.drop activePat.length) l :=
          List.drop_sublist activePat.length l
        have hx1 := s1.subset hx
        rw [← hh] at hx1
        exact s3.subset (s2.subset hx1)

lemma joinLinesC_single (l : List Char) : joinLinesC [l] = l := rfl

lemma joinLinesC_cons2 (l l2 : List Char) (ls : List (List Char)) :
    joinLinesC (l :: l2 :: ls) = l ++ '\n' :: joinLinesC (l2 :: ls) := rfl

lemma subGo_line (repl l : List Char) (hnl : ∀ c ∈ l, c ≠ '\n') (f : Nat)
    (hf : l.length ≤ f) :
    subGo repl f true l = rewriteLineC repl l := by
  unfold rewriteLineC
  cases hm : matchActive l with
  | none =>
    cases l with
    | nil => cases f <;> rfl
    | cons c rest =>
      simp only [List.length_cons] at hf
      cases f with
      | zero => omega
      | succ g =>
        rw [subGo_true_nomatch repl g c rest hm]
        have hc : (c == '\n') = false := by
          simp [hnl c (List.mem_cons_self c rest)]
        rw [hc]
        congr 1
        have h0 : subGo repl 0 false ([] : List Char) = [] := rfl
        have hch := subGo_chunk repl rest [] g
          (fun x hx => hnl x (List.mem_cons_of_mem c hx))
          (by simp only [List.length_nil]; omega)
        simp only [List.append_nil, List.length_nil, h0] at hch
        exact hch
  | some rem =>
    cases l with
    | nil =>
      rw [show matchActive ([] : List Char) = none from by decide] at hm
      exact absurd hm (by simp)
    | cons c rest =>
      simp only [List.length_cons] at hf
      cases f with
      | zero => omega
      | succ g =>
        rw [subGo_true_match repl g c rest rem hm]
        congr 1
        have hlen := matchActive_skip (c :: rest) rem hm
        simp only [List.length_cons] at hlen
        have hremnl : ∀ x ∈ rem, x ≠ '\n' :=
          fun x hx => hnl x (matchActive_sub (c :: rest) rem hm x hx)
        have h0 : subGo repl 0 false ([] : List Char) = [] := rfl
        have hch := subGo_chunk repl rem [] g hremnl
          (by simp only [List.length_nil]; omega)
        simp only [List.append_nil, List.length_nil, h0] at hch
        exact hch

lemma subGo_lines (repl : List Char) :
    ∀ ls : List (List Char),
      (∀ l ∈ ls, ∀ c ∈ l, c ≠ '\n') → (∀ l ∈ ls, crossSafe l = true) →
      ∀ f : Nat, (joinLinesC ls).length ≤ f →
      subGo repl f true (joinLinesC ls) = joinLinesC (ls.map (rewriteLineC repl))
  | [] => by
    intro _ _ f _
    rw [List.map_nil]
    cases f <;> rfl
  | [l] => by
    intro hnl _ f hf
    rw [List.map_cons, List.map_nil, joinLinesC_single, joinLinesC_single]
    rw [joinLinesC_single] at hf
    exact subGo_line repl l (hnl l (List.mem_cons_self l [])) f hf
  | l :: l2 :: ls => by
    intro hnl hcs f hf
    have hnll : ∀ c ∈ l, c ≠ '\n' := hnl l (List.mem_cons_self l (l2 :: ls))
    have hnlt : ∀ x ∈ l2 :: ls, ∀ c ∈ x, c ≠ '\n' :=
      fun x hx => hnl x (List.mem_cons_of_mem l hx)
    have hcst : ∀ x ∈ l2 :: ls, crossSafe x = true :=
      fun x hx => hcs x (List.mem_cons_of_mem l hx)
    rw [joinLinesC_cons2] at hf ⊢
    rw [List.map_cons, List.map_cons, joinLinesC_cons2, ← List.map_cons]
    have hflen : l.length + (joinLinesC (l2 :: ls)).length + 1 ≤ f := by
      simp only [List.length_append, List.length_cons] at hf
      omega
    have hml := matchActive_append l (joinLinesC (l2 :: ls))
      (hcs l (List.mem_cons_self l (l2 :: ls)))
    cases hm : matchActive l with
    | none =>
      rw [hm, Option.map_none'] at hml
      have hrl : rewriteLineC repl l = l := by
        unfold rewriteLineC
        rw [hm]
      rw [hrl]
      cases l with
      | nil =>
        simp only [List.nil_append] at hml ⊢
        cases f with
        | zero => omega
        | succ g =>
          rw [subGo_true_nomatch repl g '\n' (joinLinesC (l2 :: ls)) hml]
          rw [show ('\n' == '\n') = true from by decide]
          congr 1
          exact subGo_lines repl (l2 :: ls) hnlt hcst g (by omega)
      | cons c t =>
        cases f with
        | zero => simp only [List.length_cons] at hflen; omega
        | succ g =>
          simp only [List.cons_append] at hml ⊢
          rw [subGo_true_nomatch repl g c (t ++ '\n' :: joinLinesC (l2 :: ls)) hml]
          have hc : (c == '\n') = false := by
            simp [hnll c (List.mem_cons_self c t)]
          rw [hc]
          congr 1
          have hch := subGo_chunk repl t ('\n' :: joinLinesC (l2 :: ls)) g
            (fun x hx => hnll x (List.mem_cons_of_mem c hx))
            (by simp only [List.length_cons] at hflen ⊢; omega)
          rw [hch]
          congr 1
          rw [show ('\n' :: joinLinesC (l2 :: ls)).length =
              (joinLinesC (l2 :: ls)).length + 1 from rfl]
          rw [subGo_step_false, show ('\n' == '\n') = true from by decide]
          congr 1
          exact subGo_lines repl (l2 :: ls) hnlt hcst
            (joinLinesC (l2 :: ls)).length (le_refl _)
    | some rem =>
      rw [hm, Option.map_some'] at hml
      have hrl : rewriteLineC repl l = repl ++ rem := by
        unfold rewriteLineC
        rw [hm]
      rw [hrl]
      have hlen := matchActive_skip l rem hm
      cases l with
      | nil => simp at hlen
      | cons c t =>
        cases f with
        | zero => simp only [List.length_cons] at hflen; omega
        | succ g =>
          simp only [List.cons_append] at hml ⊢
          rw [subGo_true_match repl g c (t ++ '\n' :: joinLinesC (l2 :: ls))
              (rem ++ '\n' :: joinLinesC (l2 :: ls)) hml]
          rw [List.append_assoc]
          congr 1
          have hremnl : ∀ x ∈ rem, x ≠ '\n' :=
            fun x hx => hnll x (matchActive_sub (c :: t) rem hm x hx)
          have hch := subGo_chunk repl rem ('\n' :: joinLinesC (l2 :: ls)) g hremnl
            (by
              simp only [List.length_cons] at hflen hlen ⊢
              omega)
          rw [hch]
          congr 1
          rw [show ('\n' :: joinLinesC (l2 :: ls)).length =
              (joinLinesC (l2 :: ls)).length + 1 from rfl]
          rw [subGo_step_false, show ('\n' == '\n') = true from by decide]
          congr 1
          exact subGo_lines repl (l2 :: ls) hnlt hcst
            (joinLinesC (l2 :: ls)).length (le_refl _)

/-- C4 counterexample: on a document with two `active:` lines, `re.sub`
with no count replaces **every** match, so the second `active:` line is
rewritten too — the claim that only the first such line changes is false. -/
theorem C4_counterexample :
    subActive "false" "active: yes\nactive: yes" = "active: false\nactive: false" ∧
    subActive "false" "active: yes\nactive: yes" ≠ "active: false\nactive: yes" := by
  decide

/-- C4 (amended): `activate`/`deactivate` rewrite **every** line starting
a match of `^active:\s*\w+` — the matched key, whitespace and word are
replaced by the target literal, the rest of each such line and every
other line byte-for-byte unchanged.  Stated for documents in which no
line consists of `active:` followed only by whitespace (on such a line
the greedy `\s*` would swallow the newline and the match could span
lines). -/
theorem C4_sub_rewrites_every_match (target content : String)
    (h : ∀ l ∈ splitLinesC content.data, crossSafe l = true) :
    subActive target content =
      String.mk (joinLinesC ((splitLinesC content.data).map
        (rewriteLineC ("active: " ++ target).data))) := by
  unfold subActive
  congr 1
  have hj := joinLinesC_splitLinesC content.data
  calc subGo ("active: " ++ target).data content.data.length true content.data
      = subGo ("active: " ++ target).data content.data.length true
          (joinLinesC (splitLinesC content.data)) := by rw [hj]
    _ = joinLinesC ((splitLinesC content.data).map
          (rewriteLineC ("active: " ++ target).data)) :=
        subGo_lines ("active: " ++ target).data (splitLinesC content.data)
          (splitLinesC_no_nl content.data) h content.data.length (by rw [hj])

theorem C4_witness :
    subActive "false" "# t\nactive: yes  trailing\nbody" =
      String.mk (joinLinesC ((splitLinesC "# t\nactive: yes  trailing\nbody".data).map
        (rewriteLineC ("active: " ++ "false").data))) ∧
    subActive "false" "# t\nactive: yes  trailing\nbody" =
      "# t\nactive: false  trailing\nbody" := by
  refine ⟨C4_sub_rewrites_every_match "false" "# t\nactive: yes  trailing\nbody"
    (by decide), ?_⟩
  decide
